import Mathlib

/-!
Shallow embedding of `scripts/estimate.py` (hardware-synthesis estimation flow).

Text is modeled as `List Char`.  Python regular expressions are embedded as
dedicated matchers that reproduce Python's leftmost-match / greedy-with-
backtracking semantics for the concrete patterns the script uses; the regex
classes `\w`, `\d`, `\s` are modeled over ASCII (the inputs of this script are
ASCII HDL sources and tool logs).  External effects (the subprocess running the
synthesis tool, file reads) are passed in as explicit oracle parameters, and
Python `None`/exception results are modeled with `Option`.
-/

/-- One line of text, as produced by Python `str.split` / `str.splitlines`. -/
abbrev Line := List Char

/-- Python whitespace test (the ASCII chars matched by `str.strip`, `str.split`
and the regex class `\s`). -/
def isWs (c : Char) : Bool :=
  c == ' ' || c == '\t' || c == '\n' || c == '\r' || c == '\x0b' || c == '\x0c'

/-- ASCII decimal digit, the regex class `\d`. -/
def isDigitA (c : Char) : Bool := '0' ≤ c && c ≤ '9'

/-- ASCII word character, the regex class `\w`. -/
def isWordChar (c : Char) : Bool :=
  ('a' ≤ c && c ≤ 'z') || ('A' ≤ c && c ≤ 'Z') || isDigitA c || c == '_'

/-- ASCII lowercasing, Python `str.lower` on ASCII input. -/
def lowerA (c : Char) : Char :=
  if 'A' ≤ c && c ≤ 'Z' then Char.ofNat (c.toNat + 32) else c

/-- Does `s` start with `pat`?  (Python `str.startswith`.) -/
def startsWithL : List Char → List Char → Bool
  | _, [] => true
  | [], _ :: _ => false
  | c :: cs, p :: ps => c == p && startsWithL cs ps

/-- Does `s` contain `pat` as a contiguous substring?  (Python `pat in s`.) -/
def containsSub : List Char → List Char → Bool
  | [], pat => startsWithL [] pat
  | s@(_ :: rest), pat => startsWithL s pat || containsSub rest pat

/-- Does `s` contain character `c`?  (Python `c in s`.) -/
def containsChar (s : List Char) (c : Char) : Bool := s.any (· == c)

/-- Does `s` end with `suf`?  (Python `str.endswith`.) -/
def endsWithL (s suf : List Char) : Bool := startsWithL s.reverse suf.reverse

/-- Python `text.split('\n')`: always yields one more piece than separators. -/
def splitOnNl : List Char → List Line
  | [] => [[]]
  | '\n' :: rest => [] :: splitOnNl rest
  | c :: rest =>
    match splitOnNl rest with
    | [] => [[c]]
    | l :: ls => (c :: l) :: ls

/-- Python `str.splitlines` for the line endings occurring in this pipeline
(`\n`, `\r\n`, `\r`): no empty trailing piece for a terminal newline. -/
def pySplitLines : List Char → List Line
  | [] => []
  | '\r' :: '\n' :: rest => [] :: pySplitLines rest
  | '\n' :: rest => [] :: pySplitLines rest
  | '\r' :: rest => [] :: pySplitLines rest
  | c :: rest =>
    match pySplitLines rest with
    | [] => [[c]]
    | l :: ls => (c :: l) :: ls

/-- Python `str.strip()`. -/
def pyStrip (s : List Char) : List Char :=
  ((s.dropWhile isWs).reverse.dropWhile isWs).reverse

/-- Numeric value of a digit string (Python `int`). -/
def digitsVal (ds : List Char) : Nat :=
  ds.foldl (fun n c => n * 10 + (c.toNat - '0'.toNat)) 0

/-- Greedy `\d+` at the current position: the maximal nonempty digit run and
the remainder. -/
def splitDigits1 (s : List Char) : Option (List Char × List Char) :=
  let d := s.takeWhile isDigitA
  if d.isEmpty then none else some (d, s.dropWhile isDigitA)

/-- `re.search(r'\d+', line)` converted with `int`: value of the first digit
run in the line, if any. -/
def firstDigitRun : List Char → Option Nat
  | [] => none
  | c :: rest =>
    if isDigitA c then some (digitsVal ((c :: rest).takeWhile isDigitA))
    else firstDigitRun rest

/-- Splits of `s` into a nonempty `\w+` prefix and the remainder, shortest
prefix first. -/
def wordSplitsShort : List Char → List (List Char × List Char)
  | [] => []
  | c :: cs =>
    if isWordChar c then
      ([c], cs) :: (wordSplitsShort cs).map (fun p => (c :: p.1, p.2))
    else []

/-- Splits of `s` into a nonempty `\w+` prefix and the remainder, longest
first — the order in which Python's greedy `\w+` offers them to the rest of
the pattern during backtracking. -/
def wordSplits (s : List Char) : List (List Char × List Char) :=
  (wordSplitsShort s).reverse

/-- First success of `f` over `xs` (the backtracking search order). -/
def firstSome {α β : Type} : List α → (α → Option β) → Option β
  | [], _ => none
  | x :: r, f =>
    match f x with
    | some b => some b
    | none => firstSome r f

/-! ## Name Normalizer (`prettify_name`, estimate.py lines 34-117) -/

/-- The part of a path after the final `/` (POSIX `os.path.basename`). -/
def pyBaseName (p : List Char) : List Char :=
  (p.reverse.takeWhile (fun c => !(c == '/'))).reverse

/-- Extension removal on a single path component: split at the last dot unless
every character before it is a dot (CPython `splitext` rule for dotfiles). -/
def baseRoot (nm : List Char) : List Char :=
  let lead := nm.takeWhile (fun c => c == '.')
  let core := nm.drop lead.length
  if containsChar core '.' then
    let r := core.reverse
    lead ++ (r.drop ((r.takeWhile (fun c => !(c == '.'))).length + 1)).reverse
  else nm

/-- `os.path.splitext(p)[0]`: the directory part is untouched, the extension of
the basename is removed. -/
def pySplitExtRoot (p : List Char) : List Char :=
  p.take (p.length - (pyBaseName p).length) ++ baseRoot (pyBaseName p)

/-- The `fp_map` width table: `(exponent, mantissa)` to FP-format label, with
the `f"e{e}_m{m}"` fallback of `dict.get`. -/
def fpMap (e m : List Char) : List Char :=
  if e == "5".data && m == "10".data then "FP16".data
  else if e == "8".data && m == "23".data then "FP32".data
  else if e == "8".data && m == "24".data then "FP32".data
  else if e == "11".data && m == "52".data then "FP64".data
  else if e == "11".data && m == "53".data then "FP64".data
  else "e".data ++ e ++ "_m".data ++ m

/-- Prefix match of `(\w+)_(\d+)_(\d+)` with Python's greedy backtracking:
the first group takes the longest word run that still lets `_(\d+)_(\d+)`
match immediately after it. -/
def matchOpDD (s : List Char) : Option (List Char × List Char × List Char) :=
  firstSome (wordSplits s) (fun p =>
    match p.2 with
    | '_' :: r1 =>
      match splitDigits1 r1 with
      | some (d1, '_' :: r2) =>
        match splitDigits1 r2 with
        | some (d2, _) => some (p.1, d1, d2)
        | none => none
      | _ => none
    | _ => none)

/-- Prefix match of `(\w+)_(\d+)_(\d+)_(\d+)`, greedy as in `matchOpDD`. -/
def matchOpDDD (s : List Char) :
    Option (List Char × List Char × List Char × List Char) :=
  firstSome (wordSplits s) (fun p =>
    match p.2 with
    | '_' :: r1 =>
      match splitDigits1 r1 with
      | some (d1, '_' :: r2) =>
        match splitDigits1 r2 with
        | some (d2, '_' :: r3) =>
          match splitDigits1 r3 with
          | some (d3, _) => some (p.1, d1, d2, d3)
          | none => none
        | _ => none
      | _ => none
    | _ => none)

/-- Prefix match of `(\w+)(FP\d+)` (the tail of `Rial(\w+)(FP\d+)`): the first
group yields characters until the remainder starts with `FP` followed by a
digit; the second group is `FP` plus the maximal digit run. -/
def matchRialFp (s : List Char) : Option (List Char × List Char) :=
  firstSome (wordSplits s) (fun p =>
    match p.2 with
    | 'F' :: 'P' :: r =>
      match splitDigits1 r with
      | some (d, _) => some (p.1, 'F' :: 'P' :: d)
      | none => none
    | _ => none)

/-- Prefix match of `_e(\d+)_m(\d+)_s\d+`, returning the exponent and mantissa
groups. -/
def matchEmsSuffix (s : List Char) : Option (List Char × List Char) :=
  match s with
  | '_' :: 'e' :: r1 =>
    match splitDigits1 r1 with
    | some (e, '_' :: 'm' :: r2) =>
      match splitDigits1 r2 with
      | some (m, '_' :: 's' :: r3) =>
        match splitDigits1 r3 with
        | some _ => some (e, m)
        | none => none
      | _ => none
    | _ => none
  | _ => none

/-- `re.match(r'(Rial\w+)(_e(\d+)_m(\d+)_s\d+)', name)`: greedy `Rial\w+`
backtracks until the `_e.._m.._s..` suffix matches right after it. -/
def matchRialEms (name : List Char) :
    Option (List Char × List Char × List Char) :=
  if startsWithL name "Rial".data then
    firstSome (wordSplits (name.drop 4)) (fun p =>
      match matchEmsSuffix p.2 with
      | some (e, m) => some ("Rial".data ++ p.1, e, m)
      | none => none)
  else none

/-- `re.match(r'(Rial\w+Phase1\w+Phase2\w+)(_e(\d+)_m(\d+)_s\d+)', name)`,
with nested greedy backtracking over the three word runs. -/
def matchRialPhases (name : List Char) :
    Option (List Char × List Char × List Char) :=
  if startsWithL name "Rial".data then
    firstSome (wordSplits (name.drop 4)) (fun p1 =>
      if startsWithL p1.2 "Phase1".data then
        firstSome (wordSplits (p1.2.drop 6)) (fun p2 =>
          if startsWithL p2.2 "Phase2".data then
            firstSome (wordSplits (p2.2.drop 6)) (fun p3 =>
              match matchEmsSuffix p3.2 with
              | some (e, m) =>
                some ("Rial".data ++ p1.1 ++ "Phase1".data ++ p2.1 ++
                      "Phase2".data ++ p3.1, e, m)
              | none => none)
          else none)
      else none)
  else none

/-- Python `str.replace(pat, rep)`: replace every non-overlapping occurrence,
left to right.  The fuel argument is bounded by the input length; every step
consumes at least one character, so the bound is never hit for nonempty
patterns. -/
def replaceAllFuel : Nat → List Char → List Char → List Char → List Char
  | 0, s, _, _ => s
  | _ + 1, [], _, _ => []
  | fuel + 1, c :: rest, pat, rep =>
    if !pat.isEmpty && startsWithL (c :: rest) pat then
      rep ++ replaceAllFuel fuel ((c :: rest).drop pat.length) pat rep
    else c :: replaceAllFuel fuel rest pat rep

/-- Python `s.replace(pat, rep)` (for the nonempty patterns used here). -/
def replaceAll (s pat rep : List Char) : List Char :=
  replaceAllFuel s.length s pat rep

/-- Lines 103-117: the two `Rial..._e.._m.._s..` patterns, then the final
fallback returning the name unchanged. -/
def prettifyPhase (name : List Char) : List Char :=
  match matchRialEms name with
  | some (base, e, m) => base ++ '_' :: fpMap e m
  | none =>
    match matchRialPhases name with
    | some (base, e, m) => base ++ '_' :: fpMap e m
    | none => name

/-- Lines 99-100: the two composite-name substring replacements, then the
remaining patterns. -/
def prettifyRepl (name : List Char) : List Char :=
  let n1 := replaceAll name "ReciprocalATan2Phase1ATan2Phase2".data "Atan2".data
  let n2 := replaceAll n1 "SqrtACosPhase1ACosPhase2".data "Acos".data
  prettifyPhase n2

/-- Lines 93-96: `re.match(r'Rial(\w+)(FP\d+)', name)`; on a match return
`f"Rial{op}_{fp}"`, otherwise fall through. -/
def prettifyRial (name : List Char) : List Char :=
  if startsWithL name "Rial".data then
    match matchRialFp (name.drop 4) with
    | some (op, fp) => "Rial".data ++ op ++ '_' :: fp
    | none => prettifyRepl name
  else prettifyRepl name

/-- Lines 82-90: `re.match(r'FP_(\w+)_(\d+)_(\d+)_(\d+)', name)`; returns only
for bit widths 16/32/64, otherwise falls through. -/
def prettifyOpenDiv (name : List Char) : List Char :=
  if startsWithL name "FP_".data then
    match matchOpDDD (name.drop 3) with
    | some (op, bits, _, _) =>
      if bits == "16".data then "OpenFloat".data ++ op ++ "_FP16".data
      else if bits == "32".data then "OpenFloat".data ++ op ++ "_FP32".data
      else if bits == "64".data then "OpenFloat".data ++ op ++ "_FP64".data
      else prettifyRial name
    | none => prettifyRial name
  else prettifyRial name

/-- Lines 71-79: `re.match(r'FP_(\w+)_(\d+)_(\d+)', name)`; returns only for
bit widths 16/32/64, otherwise falls through. -/
def prettifyOpen (name : List Char) : List Char :=
  if startsWithL name "FP_".data then
    match matchOpDD (name.drop 3) with
    | some (op, bits, _) =>
      if bits == "16".data then "OpenFloat".data ++ op ++ "_FP16".data
      else if bits == "32".data then "OpenFloat".data ++ op ++ "_FP32".data
      else if bits == "64".data then "OpenFloat".data ++ op ++ "_FP64".data
      else prettifyOpenDiv name
    | none => prettifyOpenDiv name
  else prettifyOpenDiv name

/-- Lines 64-68: `re.match(r'FP(\w+)_(\d+)_(\d+)', name)`; on a match return
`f"HardFloat{op}_{fp}"` through the width table, otherwise fall through. -/
def prettifyHard (name : List Char) : List Char :=
  if startsWithL name "FP".data then
    match matchOpDD (name.drop 2) with
    | some (op, e, m) => "HardFloat".data ++ op ++ '_' :: fpMap e m
    | none => prettifyOpen name
  else prettifyOpen name

/-- Lines 53-61: `re.match(r'CFG_FP_(\w+)_(\d+)_(\d+)', name)`; returns only
for bit widths 16/32/64, otherwise falls through. -/
def prettifyCfg (name : List Char) : List Char :=
  if startsWithL name "CFG_FP_".data then
    match matchOpDD (name.drop 7) with
    | some (op, bits, _) =>
      if bits == "16".data then "CFG".data ++ op ++ "_FP16".data
      else if bits == "32".data then "CFG".data ++ op ++ "_FP32".data
      else if bits == "64".data then "CFG".data ++ op ++ "_FP64".data
      else prettifyHard name
    | none => prettifyHard name
  else prettifyHard name

/-- `prettify_name(filename)` (estimate.py lines 34-117): strip the extension,
pass `FLOPCO_FP...` names through unchanged, then try the naming-convention
recognizers in source order with the unchanged name as fallback.  The
`lru_cache` memoization only caches this pure computation. -/
def prettify_name (filename : List Char) : List Char :=
  let name := pySplitExtRoot filename
  if startsWithL name "FLOPCO_FP".data then name
  else prettifyCfg name

/-! ## Statistics Extractor, SystemVerilog path (estimate.py lines 504-533) -/

def nWireBitsLabel : List Char := "Number of wire bits:".data

def nCellsLabel : List Char := "Number of cells:".data

def nOfLabel : List Char := "Number of".data

def wireBitsLit : List Char := "wire bits".data

def cellsLit : List Char := "cells".data

/-- At the current position: `(\d+)\s+lit` — a maximal digit run, at least one
whitespace, then the literal; returns the value of group 1. -/
def matchDigitsThen (s lit : List Char) : Option Nat :=
  match splitDigits1 s with
  | none => none
  | some (d, r) =>
    if (r.takeWhile isWs).isEmpty then none
    else if startsWithL (r.dropWhile isWs) lit then some (digitsVal d)
    else none

/-- `re.search(r'(\d+)\s+lit', line)`: leftmost match wins. -/
def searchNumThen : List Char → List Char → Option Nat
  | [], _ => none
  | s@(_ :: rest), lit =>
    match matchDigitsThen s lit with
    | some n => some n
    | none => searchNumThen rest lit

/-- `re.search(r'^\s+\d+\s+cells\s*$', line)`: a standalone right-aligned
`N cells` line — at least one leading whitespace, a digit run, whitespace,
the literal `cells`, then only whitespace to the end. -/
def matchCellsAnchor (l : Line) : Bool :=
  if (l.takeWhile isWs).isEmpty then false
  else
    match splitDigits1 (l.dropWhile isWs) with
    | none => false
    | some (_, r2) =>
      if (r2.takeWhile isWs).isEmpty then false
      else
        let r3 := r2.dropWhile isWs
        startsWithL r3 cellsLit && (r3.drop 5).all isWs

/-- One line of the SystemVerilog statistics scan (the `elif` chain of
estimate.py lines 505-533): state is `(wire_bits, cells)`; each recognized
format variant overwrites its metric, unrecognized lines and label lines
without a number leave the state unchanged. -/
def svStep (st : Nat × Nat) (line : Line) : Nat × Nat :=
  if containsSub line nWireBitsLabel then
    match firstDigitRun line with
    | some n => (n, st.2)
    | none => st
  else if (searchNumThen line wireBitsLit).isSome && !containsSub line nOfLabel then
    match searchNumThen line wireBitsLit with
    | some n => (n, st.2)
    | none => st
  else if containsSub line nCellsLabel then
    match firstDigitRun line with
    | some n => (st.1, n)
    | none => st
  else if matchCellsAnchor line then
    match searchNumThen line cellsLit with
    | some n => (st.1, n)
    | none => st
  else st

/-- The SystemVerilog statistics extraction: fold the per-line scan over all
output lines starting from `(0, 0)`. -/
def extractSvStats (lines : List Line) : Nat × Nat := lines.foldl svStep (0, 0)

/-- The wire-bits update a single line contributes, if any (the first two
branches of the `elif` chain). -/
def wbUpd (line : Line) : Option Nat :=
  if containsSub line nWireBitsLabel then firstDigitRun line
  else if (searchNumThen line wireBitsLit).isSome && !containsSub line nOfLabel then
    searchNumThen line wireBitsLit
  else none

/-- The cell-count update a single line contributes, if any (the last two
branches of the `elif` chain; lines taken by a wire-bits branch never reach
them). -/
def ceUpd (line : Line) : Option Nat :=
  if containsSub line nWireBitsLabel then none
  else if (searchNumThen line wireBitsLit).isSome && !containsSub line nOfLabel then
    none
  else if containsSub line nCellsLabel then firstDigitRun line
  else if matchCellsAnchor line then searchNumThen line cellsLit
  else none

/-! ## Parallel Driver (`process_files`, estimate.py lines 598-610) -/

/-- Python `dict` assignment `m[k] = v` on an association list: overwrite in
place if the key exists, append otherwise. -/
def dictInsert (m : List (String × (Nat × Nat))) (k : String) (v : Nat × Nat) :
    List (String × (Nat × Nat)) :=
  match m with
  | [] => [(k, v)]
  | (k', v') :: rest =>
    if k' = k then (k, v) :: rest else (k', v') :: dictInsert rest k v

/-- Python `dict` lookup `m[k]`. -/
def dictFind (m : List (String × (Nat × Nat))) (k : String) : Option (Nat × Nat) :=
  match m with
  | [] => none
  | (k', v') :: rest => if k' = k then some v' else dictFind rest k

/-- Result recorded for one file: the worker's value, or `(0, 0)` when the
worker raised (`future.result()` threw and the `except` arm ran). -/
def workerResult (worker : String → Option (Nat × Nat)) (f : String) : Nat × Nat :=
  match worker f with
  | some r => r
  | none => (0, 0)

/-- `process_files`: every submitted future completes exactly once, so
`as_completed` delivers the input files in some permutation `order`; each
completion stores its file's result (or `(0,0)` on a worker exception) into
the dict. -/
def process_files (worker : String → Option (Nat × Nat)) (order : List String) :
    List (String × (Nat × Nat)) :=
  order.foldl (fun m f => dictInsert m f (workerResult worker f)) []

/-! ## Statistics Extractor, VHDL path (`sum_cell_counts`, lines 365-390) -/

def statsMarker : List Char := "Printing statistics.".data

/-- Does the line contain the statistics marker?  (`"Printing statistics." in
line`.) -/
def hasMarkerLine (l : Line) : Bool := containsSub l statsMarker

/-- `re.match(r'\s*Number of cells:\s*(\d+)', line)` converted with `int`. -/
def numCellsAt (l : Line) : Option Nat :=
  let r := l.dropWhile isWs
  if startsWithL r nCellsLabel then
    match splitDigits1 ((r.drop 16).dropWhile isWs) with
    | some (d, _) => some (digitsVal d)
    | none => none
  else none

/-- The contribution of one line to the cell sum (0 when the label does not
match). -/
def cellsOfLine (l : Line) : Nat := (numCellsAt l).getD 0

/-- The index loop of lines 371-374: the index of the last line containing the
statistics marker, if any. -/
def lastMarkerIdxAux : Nat → Option Nat → List Line → Option Nat
  | _, acc, [] => acc
  | i, acc, l :: rest =>
    lastMarkerIdxAux (i + 1) (if hasMarkerLine l then some i else acc) rest

/-- Sum of all `Number of cells:` values from the last statistics marker
onward (the marker line itself included in the scanned range); 0 when no
marker is present. -/
def sumCellsLines (lines : List Line) : Nat :=
  match lastMarkerIdxAux 0 none lines with
  | none => 0
  | some i => ((lines.drop i).map cellsOfLine).sum

/-- `sum_cell_counts(text)` (estimate.py lines 365-390). -/
def sum_cell_counts (text : List Char) : Nat :=
  sumCellsLines (splitOnNl (pyStrip text))

/-! ## Top designator resolution, VHDL (`get_top_entity`, lines 315-345) -/

/-- Word boundary `\b` before the current position, given the preceding
character. -/
def boundaryB : Option Char → Bool
  | none => true
  | some c => !isWordChar c

/-- Word boundary `\b` after a literal, given the remainder of the text. -/
def boundaryAfter : List Char → Bool
  | [] => true
  | d :: _ => !isWordChar d

/-- Case-insensitive prefix test against a lowercase pattern (the
`re.IGNORECASE` literal match). -/
def startsWithCI : List Char → List Char → Bool
  | _, [] => true
  | [], _ :: _ => false
  | c :: cs, p :: ps => lowerA c == p && startsWithCI cs ps

/-- `re.match(r'\s*(\w+)', rest_of_line.strip())`: the first word after the
keyword, if the remainder starts (after whitespace) with a word character. -/
def nextWordOf (t : List Char) : Option (List Char) :=
  let w := (t.dropWhile isWs).takeWhile isWordChar
  if w.isEmpty then none else some w

/-- The per-line `finditer(r'\bentity\b', line, re.IGNORECASE)` loop: the word
following the last `entity` occurrence that is followed by a word.  Scanning
every position is equivalent to the non-overlapping `finditer` because the
literal `entity` cannot overlap itself. -/
def entityScan : Option Char → List Char → Option (List Char)
  | _, [] => none
  | prev, s@(c :: rest) =>
    let here : Option (List Char) :=
      if boundaryB prev && startsWithCI s "entity".data &&
          boundaryAfter (s.drop 6) then
        nextWordOf (s.drop 6)
      else none
    match entityScan (some c) rest with
    | some w => some w
    | none => here

/-- The line loop of `get_top_entity`: `last_entity_word` is updated only when
a line yields a word, so the last yielding line wins. -/
def getTopEntityLines (ls : List Line) : Option (List Char) :=
  ls.foldl
    (fun acc l =>
      match entityScan none l with
      | some w => some w
      | none => acc)
    none

/-- `get_top_entity(filename)` on the file's content (lines 315-345): `None`
when no entity declaration is found. -/
def get_top_entity (content : List Char) : Option (List Char) :=
  getTopEntityLines (pySplitLines content)

/-- The VHDL command string of line 404:
`ghdl --std=08 -fsynopsys {fn} -e {top}; synth; stat`. -/
def vhdlCmd (fn top : List Char) : List Char :=
  "ghdl --std=08 -fsynopsys ".data ++ fn ++ " -e ".data ++ top ++
    "; synth; stat".data

/-- The VHDL branch of `yosys(fn)` (lines 398-405, 446-453, 499-502, 535-538):
fail fast with `(0, 0)` when no entity is found; otherwise run the tool
(`tool` maps the command to captured stdout, `none` standing for timeout /
missing binary / subprocess exception, each of which yields `(0, 0)`), then
extract only the cell count — the wire-bits metric is never assigned. -/
def yosys_vhdl (fn content : List Char) (tool : List Char → Option (List Char)) :
    Nat × Nat :=
  match get_top_entity content with
  | none => (0, 0)
  | some top =>
    match tool (vhdlCmd fn top) with
    | none => (0, 0)
    | some out => (0, sum_cell_counts out)

/-- A concrete worker for driver examples: fails (raises) on every file except
`"b"`. -/
def workerEx : String → Option (Nat × Nat) :=
  fun f => if f = "b" then some (1, 2) else none

/-! ## Top designator resolution, SystemVerilog (`get_top_module`, 290-313) -/

/-- Match of `\bmodule\s+(\w+)\s*(?:\(|#)` at the current position: word
boundary, the literal `module`, at least one whitespace, the name, optional
whitespace, then `(` or `#`; returns the captured name. -/
def matchModuleAt (prev : Option Char) (s : List Char) : Option (List Char) :=
  if boundaryB prev && startsWithL s "module".data then
    let r1 := s.drop 6
    if (r1.takeWhile isWs).isEmpty then none
    else
      let r2 := r1.dropWhile isWs
      let nm := r2.takeWhile isWordChar
      if nm.isEmpty then none
      else
        match (r2.dropWhile isWordChar).dropWhile isWs with
        | '(' :: _ => some nm
        | '#' :: _ => some nm
        | _ => none
  else none

/-- `module_pattern.finditer(content)`: all captured module names in text
order.  Scanning every position is equivalent to the non-overlapping
`finditer` here because no later match can begin inside an earlier one (every
interior position is either inside the literal, inside whitespace, or inside
the `\w+` name where the preceding word character fails `\b`). -/
def moduleCands : Option Char → List Char → List (List Char)
  | _, [] => []
  | prev, s@(c :: rest) =>
    match matchModuleAt prev s with
    | some nm => nm :: moduleCands (some c) rest
    | none => moduleCands (some c) rest

/-- The verification-related substrings excluded from candidate names
(line 300), checked against the lowercased name. -/
def skipSubs : List (List Char) :=
  ["verification".data, "assert".data, "assume".data, "cover".data,
   "layer".data]

/-- Is the candidate name excluded?  (`any(skip in name.lower() for ...)`.) -/
def nameExcluded (nm : List Char) : Bool :=
  skipSubs.any (fun p => containsSub (nm.map lowerA) p)

/-- The surviving candidate list of `get_top_module`: declared modules in file
order minus the excluded names. -/
def svCandidates (content : List Char) : List (List Char) :=
  (moduleCands none content).filter (fun nm => !nameExcluded nm)

/-- The selection logic of `get_top_module` (lines 303-310) given the file's
content and base name: base name when there is no candidate, a candidate equal
to the base name when one exists, otherwise the last candidate. -/
def get_top_module_from (content base : List Char) : List Char :=
  let cs := svCandidates content
  if cs.isEmpty then base
  else if cs.any (fun c => c == base) then base
  else cs.getLastD base

/-! ## Tool Invoker (`yosys`, estimate.py lines 392-552) -/

/-- The command script of lines 422-428 / 432-438 as its list of lines: a read
line followed by the fixed pipeline `hierarchy`/`proc`/`techmap`/`opt_clean`/
`stat`. -/
def svCmdLines (readLine top : List Char) : List (List Char) :=
  [readLine,
   "hierarchy -top ".data ++ top,
   "proc".data,
   "techmap -map +/techmap.v".data,
   "opt_clean".data,
   "stat".data]

/-- The read line used when preprocessing succeeded: `read_verilog -sv` on the
temporary file holding the rewritten text. -/
def svReadPre (path : List Char) : List Char := "read_verilog -sv ".data ++ path

/-- The fallback read line used when preprocessing failed: `read -sv` on the
original file path. -/
def svReadOrig (path : List Char) : List Char := "read -sv ".data ++ path

/-- The SystemVerilog branch of `yosys(fn)` (lines 406-438, 455-461, 503-533):
`pre` is the result of `preprocess_sv_file` (`none` when it raised and
returned `None`); on success the command reads the rewritten temporary file,
on failure the same pipeline is built against the original path (with a
logged warning); the tool oracle maps the command lines to captured stdout
(`none` for timeout / missing binary / subprocess exception, each yielding
`(0, 0)`); stdout is split on newlines and scanned for both metrics. -/
def yosys_sv (fn content tmpPath : List Char) (pre : Option (List Char))
    (tool : List (List Char) → Option (List Char)) : Nat × Nat :=
  let top := get_top_module_from content (pySplitExtRoot (pyBaseName fn))
  let cmd :=
    match pre with
    | some _ => svCmdLines (svReadPre tmpPath) top
    | none => svCmdLines (svReadOrig fn) top
  match tool cmd with
  | none => (0, 0)
  | some out => extractSvStats (splitOnNl out)

/-- The branch dispatch of `yosys(fn)` (line 398): files ending in `.vhdl`
take the VHDL path, everything else the SystemVerilog path. -/
def yosys_analyze (fn content tmpPath : List Char) (pre : Option (List Char))
    (toolV : List Char → Option (List Char))
    (toolS : List (List Char) → Option (List Char)) : Nat × Nat :=
  if endsWithL fn ".vhdl".data then yosys_vhdl fn content toolV
  else yosys_sv fn content tmpPath pre toolS

/-! ## Source Rewriter, conditional-compilation removal (lines 252-273)

The `ENABLE_INITIAL_REG_` suppression pass of `preprocess_sv_file`: a
line-by-line scan with an integer suppression depth.
-/

def enableMarkerStr : List Char := "ENABLE_INITIAL_REG_".data

/-- Match of `` `ifdef\s+ENABLE_INITIAL_REG_ `` at the current position. -/
def matchIfdefEnableAt (s : List Char) : Bool :=
  startsWithL s "`ifdef".data &&
    (let r := s.drop 6
     !(r.takeWhile isWs).isEmpty && startsWithL (r.dropWhile isWs) enableMarkerStr)

/-- `re.search` of the marker-guarded `` `ifdef `` pattern. -/
def searchIfdefEnable : List Char → Bool
  | [] => false
  | s@(_ :: rest) => matchIfdefEnableAt s || searchIfdefEnable rest

/-- Match of `` `ifndef\s+ENABLE_INITIAL_REG_ `` at the current position. -/
def matchIfndefEnableAt (s : List Char) : Bool :=
  startsWithL s "`ifndef".data &&
    (let r := s.drop 7
     !(r.takeWhile isWs).isEmpty && startsWithL (r.dropWhile isWs) enableMarkerStr)

/-- `re.search` of the marker-guarded `` `ifndef `` pattern. -/
def searchIfndefEnable : List Char → Bool
  | [] => false
  | s@(_ :: rest) => matchIfndefEnableAt s || searchIfndefEnable rest

/-- Match of `` `endif.*ENABLE_INITIAL_REG_ `` at the current position: the
literal `` `endif `` with the marker anywhere after it on the line. -/
def matchEndifEnableAt (s : List Char) : Bool :=
  startsWithL s "`endif".data && containsSub (s.drop 6) enableMarkerStr

/-- `re.search` of the marker-suffixed `` `endif `` pattern. -/
def searchEndifEnable : List Char → Bool
  | [] => false
  | s@(_ :: rest) => matchEndifEnableAt s || searchEndifEnable rest

/-- Match of the generic `` `(?:ifdef|ifndef)\b `` at the current position. -/
def matchGenOpenAt (s : List Char) : Bool :=
  (startsWithL s "`ifdef".data && boundaryAfter (s.drop 6)) ||
    (startsWithL s "`ifndef".data && boundaryAfter (s.drop 7))

/-- `re.search` of the generic conditional-open pattern. -/
def searchGenOpen : List Char → Bool
  | [] => false
  | s@(_ :: rest) => matchGenOpenAt s || searchGenOpen rest

/-- Match of the generic `` `endif\b `` at the current position. -/
def matchGenCloseAt (s : List Char) : Bool :=
  startsWithL s "`endif".data && boundaryAfter (s.drop 6)

/-- `re.search` of the generic conditional-close pattern. -/
def searchGenClose : List Char → Bool
  | [] => false
  | s@(_ :: rest) => matchGenCloseAt s || searchGenClose rest

/-- The non-marker handling of a line (lines 266-272): while suppressing
(`depth > 0`), generic conditional directives adjust the depth and every line
is dropped; otherwise the line is kept unchanged.  Result: new depth and
whether the line is kept. -/
def enableFall (d : Int) (line : Line) : Int × Bool :=
  if d > 0 then
    if searchGenOpen line then (d + 1, false)
    else if searchGenClose line then (d - 1, false)
    else (d, false)
  else (d, true)

/-- One line of the suppression pass (lines 255-272): marker lines matching
the `` `ifdef `` pattern increment the depth, the `` `ifndef `` pattern SETS
it to 1, the `` `endif `` pattern decrements it; all other lines fall through
to the generic handling. -/
def enableStep (d : Int) (line : Line) : Int × Bool :=
  if containsSub line enableMarkerStr then
    if searchIfdefEnable line then (d + 1, false)
    else if searchIfndefEnable line then (1, false)
    else if searchEndifEnable line then (d - 1, false)
    else enableFall d line
  else enableFall d line

/-- The fold step threading `(skip_depth, cleaned)` through the line loop. -/
def enableScan (st : Int × List Line) (line : Line) : Int × List Line :=
  let r := enableStep st.1 line
  (r.1, if r.2 then st.2 ++ [line] else st.2)

/-- The whole suppression pass: the `cleaned` list after folding all lines
from depth 0. -/
def removeEnableBlocks (lines : List Line) : List Line :=
  (lines.foldl enableScan (0, [])).2

/-- Static classification of a line for the well-formedness side conditions:
is it a conditional-open directive, a conditional-close directive, or neither,
judged by the same patterns the pass itself tests, in the same priority
order. -/
inductive DirKind where
  | openDir : DirKind
  | closeDir : DirKind
  | plainDir : DirKind
deriving DecidableEq

/-- The directive kind of a line (marker patterns first, then the generic
patterns, mirroring the test order of the pass). -/
def dirKind (line : Line) : DirKind :=
  if containsSub line enableMarkerStr then
    if searchIfdefEnable line then .openDir
    else if searchIfndefEnable line then .openDir
    else if searchEndifEnable line then .closeDir
    else if searchGenOpen line then .openDir
    else if searchGenClose line then .closeDir
    else .plainDir
  else
    if searchGenOpen line then .openDir
    else if searchGenClose line then .closeDir
    else .plainDir

/-- Signed contribution of a line to the nesting depth of the input. -/
def dirVal (line : Line) : Int :=
  match dirKind line with
  | .openDir => 1
  | .closeDir => -1
  | .plainDir => 0

/-- Net open/close balance of a list of lines. -/
def dirBal (ls : List Line) : Int := (ls.map dirVal).sum

/-- Well-formed nesting from a running depth `t`: no prefix of the directive
sequence closes more blocks than were opened. -/
def dirNonnegFrom : Int → List Line → Bool
  | _, [] => true
  | t, l :: ls =>
    if 0 ≤ t + dirVal l then dirNonnegFrom (t + dirVal l) ls else false

/-! ## Source Rewriter, declaration hoisting (`_hoist_logic_from_always`,
estimate.py lines 119-180) -/

/-- Python `line.split('//')[0]`: the line up to the first comment marker. -/
def stripLineComment : Line → Line
  | [] => []
  | c :: rest =>
    if startsWithL (c :: rest) "//".data then [] else c :: stripLineComment rest

/-- `re.search(r'\bw\b', s)` for a literal word `w`: the word with boundaries
on both sides, anywhere in `s`. -/
def searchWordGo (w : List Char) : Option Char → List Char → Bool
  | _, [] => false
  | prev, s@(c :: rest) =>
    (boundaryB prev && startsWithL s w && boundaryAfter (s.drop w.length)) ||
      searchWordGo w (some c) rest

/-- Whole-word search from the start of the line. -/
def searchWord (s w : List Char) : Bool := searchWordGo w none s

/-- The alternatives of the fused closing-keyword pattern of line 140. -/
def endKwAlts : List (List Char) :=
  ["endmodule".data, "function".data, "case".data, "task".data,
   "primitive".data, "generate".data]

/-- Match of `\bend(endmodule|function|case|task|primitive|generate)\b` at the
current position. -/
def matchEndKwAt (prev : Option Char) (s : List Char) : Bool :=
  boundaryB prev && startsWithL s "end".data &&
    endKwAlts.any (fun a =>
      startsWithL (s.drop 3) a && boundaryAfter (s.drop (3 + a.length)))

/-- `re.search` of the fused closing-keyword pattern. -/
def searchEndKw : Option Char → List Char → Bool
  | _, [] => false
  | prev, s@(c :: rest) => matchEndKwAt prev s || searchEndKw (some c) rest

/-- The begin test of line 139 on the comment-stripped line. -/
def hasBeginTok (r : Line) : Bool := searchWord r "begin".data

/-- The combined end test of line 140: a standalone `end` not negated by the
fused closing-keyword pattern. -/
def hasEndTok (r : Line) : Bool :=
  searchWord r "end".data && !searchEndKw none r

/-- `re.match(r'^(\s*)always\s+@\s*\([^)]+\)\s+begin\b', line)`: returns the
captured indentation on a match. -/
def alwaysHeader (l : Line) : Option (List Char) :=
  let ind := l.takeWhile isWs
  let r0 := l.dropWhile isWs
  if startsWithL r0 "always".data then
    let r1 := r0.drop 6
    if (r1.takeWhile isWs).isEmpty then none
    else
      match r1.dropWhile isWs with
      | '@' :: r3 =>
        match r3.dropWhile isWs with
        | '(' :: r5 =>
          if (r5.takeWhile (fun c => !(c == ')'))).isEmpty then none
          else
            match r5.dropWhile (fun c => !(c == ')')) with
            | ')' :: r6 =>
              if (r6.takeWhile isWs).isEmpty then none
              else
                let r7 := r6.dropWhile isWs
                if startsWithL r7 "begin".data && boundaryAfter (r7.drop 5) then
                  some ind
                else none
            | _ => none
        | _ => none
      | _ => none
  else none

/-- `re.match(r'^(\s*)logic\s+(\[[^\]]+\]\s+)?(\w+)\s*=\s*(.*)$', line)`:
returns (indent, optional bracket group including its trailing whitespace,
name, right-hand side after the equals sign).  When the optional bracket group
is present but fails to complete, the fallback `\w+` starts at `[` and fails,
so the whole match fails, as in Python. -/
def logicDecl (l : Line) :
    Option (List Char × List Char × List Char × List Char) :=
  let ind := l.takeWhile isWs
  let r0 := l.dropWhile isWs
  if startsWithL r0 "logic".data then
    let r1 := r0.drop 5
    if (r1.takeWhile isWs).isEmpty then none
    else
      let r2 := r1.dropWhile isWs
      let br : Option (List Char × List Char) :=
        match r2 with
        | '[' :: r3 =>
          if (r3.takeWhile (fun c => !(c == ']'))).isEmpty then none
          else
            match r3.dropWhile (fun c => !(c == ']')) with
            | ']' :: r4 =>
              if (r4.takeWhile isWs).isEmpty then none
              else
                some ('[' :: (r3.takeWhile (fun c => !(c == ']')) ++
                  ']' :: r4.takeWhile isWs), r4.dropWhile isWs)
            | _ => none
        | _ => none
      let tr :=
        match br with
        | some p => p
        | none => (([] : List Char), r2)
      let nm := tr.2.takeWhile isWordChar
      if nm.isEmpty then none
      else
        match (tr.2.dropWhile isWordChar).dropWhile isWs with
        | '=' :: r7 => some (ind, tr.1, nm, r7.dropWhile isWs)
        | _ => none
  else none

/-- Index of the first occurrence of `c` (Python `str.find`). -/
def idxOfChar : List Char → Char → Option Nat
  | [], _ => none
  | x :: rest, c =>
    if x == c then some 0
    else
      match idxOfChar rest c with
      | some i => some (i + 1)
      | none => none

/-- Index of the last occurrence of `c` (Python `str.rfind`). -/
def lastIdxOfChar (s : List Char) (c : Char) : Option Nat :=
  match idxOfChar s.reverse c with
  | some i => some (s.length - 1 - i)
  | none => none

/-- Python slice `s[a:b]`. -/
def sliceL (s : List Char) (a b : Nat) : List Char := (s.take b).drop a

/-- Python `str.split()` with no separator: whitespace-run tokenization,
empty tokens dropped. -/
def splitWsAux : List Char → List Char → List (List Char)
  | acc, [] => if acc.isEmpty then [] else [acc.reverse]
  | acc, c :: rest =>
    if isWs c then
      if acc.isEmpty then splitWsAux [] rest
      else acc.reverse :: splitWsAux [] rest
    else splitWsAux (c :: acc) rest

/-- Join tokens with single spaces (Python `' '.join`). -/
def joinSpace : List (List Char) → List Char
  | [] => []
  | [t] => t
  | t :: rest => t ++ ' ' :: joinSpace rest

/-- Line 170: `' '.join(rhs.split())` — collapse internal whitespace
(including newlines) to single spaces and strip the ends. -/
def collapseWs (s : List Char) : List Char := joinSpace (splitWsAux [] s)

/-- Python `'\n'.join(lines)`. -/
def joinNl : List Line → List Char
  | [] => []
  | [l] => l
  | l :: rest => l ++ '\n' :: joinNl rest

/-- Lines 164-172: extract the right-hand side of the (possibly multi-line)
declaration from the first `=` to the last `;`, collapse it to one line, and
build `{indent}wire {typ}{name} = {rhs};` with the ALWAYS header's indent;
`none` when a delimiter is missing (then nothing is hoisted, though the
statement lines were still consumed). -/
def mkWire (ind typ nm full : List Char) : Option Line :=
  match idxOfChar full '=', lastIdxOfChar full ';' with
  | some i, some j =>
    some (ind ++ "wire ".data ++ typ ++ nm ++ " = ".data ++
      collapseWs (sliceL full (i + 1) j) ++ ";".data)
  | _, _ => none

/-- Scanner mode of the hoisting pass: at top level; inside an always block
(header indent, begin/end depth, hoisted wires pending insertion, body lines
emitted so far, the header line); or consuming a multi-line declaration
statement inside a block (additionally the captured type group, name, the
statement lines so far and the accumulated right-hand side). -/
inductive HMode where
  | top : HMode
  | blk (ind : List Char) (depth : Nat) (hoisted : List Line) (acc : List Line)
      (hdr : Line) : HMode
  | stmt (ind : List Char) (depth : Nat) (hoisted : List Line) (acc : List Line)
      (hdr : Line) (typ nm : List Char) (stmtLines : List Line)
      (rhs : List Char) : HMode

/-- One line of `_hoist_logic_from_always`: at top level an always header
opens a block; inside a block, `begin` increments the depth, a standalone
`end` decrements it and at depth zero closes the block, inserting the hoisted
wires immediately before the header; a declaration with initializer is
captured (consuming continuation lines until a semicolon appears in the
accumulated right-hand side) and recorded for hoisting instead of being
emitted; all other lines are emitted in place. -/
def hoistStep (st : List Line × HMode) (line : Line) : List Line × HMode :=
  match st.2 with
  | .top =>
    match alwaysHeader line with
    | some ind => (st.1, .blk ind 1 [] [] line)
    | none => (st.1 ++ [line], .top)
  | .blk ind d h acc hdr =>
    let r0 := stripLineComment line
    let d1 := if hasBeginTok r0 then d + 1 else d
    if hasEndTok r0 then
      if d1 = 1 then (st.1 ++ h ++ [hdr] ++ acc ++ [line], .top)
      else (st.1, .blk ind (d1 - 1) h (acc ++ [line]) hdr)
    else
      match logicDecl line with
      | some (_, typ, nm, rhs) =>
        if containsChar rhs ';' then
          match mkWire ind typ nm line with
          | some w => (st.1, .blk ind d1 (h ++ [w]) acc hdr)
          | none => (st.1, .blk ind d1 h acc hdr)
        else (st.1, .stmt ind d1 h acc hdr typ nm [line] rhs)
      | none => (st.1, .blk ind d1 h (acc ++ [line]) hdr)
  | .stmt ind d h acc hdr typ nm sl rhs =>
    let sl1 := sl ++ [line]
    let rhs1 := rhs ++ '\n' :: line
    if containsChar rhs1 ';' then
      match mkWire ind typ nm (joinNl sl1) with
      | some w => (st.1, .blk ind d (h ++ [w]) acc hdr)
      | none => (st.1, .blk ind d h acc hdr)
    else (st.1, .stmt ind d h acc hdr typ nm sl1 rhs1)

/-- Close-out when the input ends inside a block: the Python while loop just
stops — the header and body lines already emitted remain, pending hoisted
wires and a pending partial statement are discarded. -/
def hoistFinal (st : List Line × HMode) : List Line :=
  match st.2 with
  | .top => st.1
  | .blk _ _ _ acc hdr => st.1 ++ [hdr] ++ acc
  | .stmt _ _ _ acc hdr _ _ _ _ => st.1 ++ [hdr] ++ acc

/-- `_hoist_logic_from_always` on the list of lines of the content. -/
def hoistLines (lines : List Line) : List Line :=
  hoistFinal (lines.foldl hoistStep ([], .top))

/-- `_hoist_logic_from_always(content)` (estimate.py lines 119-180). -/
def hoist_logic_from_always (content : List Char) : List Char :=
  joinNl (hoistLines (splitOnNl content))

/-- A line that does not open an always block. -/
def plainTopLine (l : Line) : Bool := (alwaysHeader l).isNone

/-- A block-body line with no `begin`, no standalone `end`, and no
declaration-with-initializer: it is emitted in place and leaves the scanner
state unchanged. -/
def plainBodyLine (l : Line) : Bool :=
  !hasBeginTok (stripLineComment l) &&
    !searchWord (stripLineComment l) "end".data && (logicDecl l).isNone

/-- The concrete clocked-block header of the claim's example. -/
def hoistHdrEx : Line := "  always @(posedge clk) begin".data

/-- The claim's in-block declaration `logic [7:0] tmp = a + b;`. -/
def hoistDeclEx1 : Line := "    logic [7:0] tmp = a + b;".data

/-- A second in-block declaration, for the source-order property. -/
def hoistDeclEx2 : Line := "    logic [3:0] u = c;".data

/-- The closing line of the block. -/
def hoistEndEx : Line := "  end".data

/-- The hoisted wire produced from the first declaration. -/
def hoistWireEx1 : Line := "  wire [7:0] tmp = a + b;".data

/-- The hoisted wire produced from the second declaration. -/
def hoistWireEx2 : Line := "  wire [3:0] u = c;".data

/-! # Theorems -/

/-! ### Claim C3 -/

/-- Claim C3, counterexample.  The claim states `prettify_name` is idempotent
on every file base name.  It is not: `prettify_name "RialAddFP16" =
"RialAdd_FP16"` (the `Rial(\w+)(FP\d+)` recognizer), but applying the
normalizer to that output matches the same recognizer again with the greedy
`\w+` group capturing `Add_`, producing `RialAdd__FP16` with a second
underscore — not a no-op. -/
theorem prettify_name_not_idempotent :
    prettify_name (prettify_name "RialAddFP16".data) ≠
      prettify_name "RialAddFP16".data := by decide

/-- Claim C3, amended.  `prettify_name` is pure and deterministic (same input,
same output), but it is not idempotent: the Rial recognizer fires again on its
own output, inserting one more underscore per application
(`RialAddFP16` to `RialAdd_FP16` to `RialAdd__FP16`). -/
theorem prettify_name_deterministic_not_idempotent :
    (∀ n : List Char, prettify_name n = prettify_name n) ∧
      prettify_name "RialAddFP16".data = "RialAdd_FP16".data ∧
      prettify_name "RialAdd_FP16".data = "RialAdd__FP16".data :=
  ⟨fun _ => rfl, by decide, by decide⟩

/-! ### Claim C2 -/

/-- Each step of the statistics fold updates the wire-bits component exactly
when the line contributes a wire-bits value. -/
theorem svStep_fst (st : Nat × Nat) (l : Line) :
    (svStep st l).1 = (wbUpd l).getD st.1 := by
  unfold svStep wbUpd
  split_ifs <;> solve
    | rfl
    | (cases hfd : firstDigitRun l <;> simp [hfd])
    | (cases hs : searchNumThen l wireBitsLit <;> simp [hs])
    | (cases hs : searchNumThen l cellsLit <;> simp [hs])

/-- Each step of the statistics fold updates the cell-count component exactly
when the line contributes a cell-count value. -/
theorem svStep_snd (st : Nat × Nat) (l : Line) :
    (svStep st l).2 = (ceUpd l).getD st.2 := by
  unfold svStep ceUpd
  split_ifs <;> solve
    | rfl
    | (cases hfd : firstDigitRun l <;> simp [hfd])
    | (cases hs : searchNumThen l wireBitsLit <;> simp [hs])
    | (cases hs : searchNumThen l cellsLit <;> simp [hs])

/-- A fold of getD-style updates over lines contributing nothing is the
identity. -/
theorem foldl_getD_none {f : Line → Option Nat} (ys : List Line) (b : Nat)
    (h : ∀ y ∈ ys, f y = none) :
    ys.foldl (fun a l => (f l).getD a) b = b := by
  induction ys generalizing b with
  | nil => rfl
  | cons y ys ih =>
    simp only [List.foldl_cons, h y (by simp)]
    exact ih b (fun z hz => h z (by simp [hz]))

/-- The wire-bits component of the statistics fold only depends on the
per-line wire-bits updates. -/
theorem extract_fst (lines : List Line) (st : Nat × Nat) :
    (lines.foldl svStep st).1 =
      lines.foldl (fun a l => (wbUpd l).getD a) st.1 := by
  induction lines generalizing st with
  | nil => rfl
  | cons l ls ih => simp only [List.foldl_cons, ih, svStep_fst]

/-- The cell-count component of the statistics fold only depends on the
per-line cell-count updates. -/
theorem extract_snd (lines : List Line) (st : Nat × Nat) :
    (lines.foldl svStep st).2 =
      lines.foldl (fun a l => (ceUpd l).getD a) st.2 := by
  induction lines generalizing st with
  | nil => rfl
  | cons l ls ih => simp only [List.foldl_cons, ih, svStep_snd]

/-- Claim C2.  On the SystemVerilog extraction path, `"Number of cells: 52"`
followed later by a new-format (right-aligned) `"48 cells"` line yields
cellCount 48; and in general, for each of the two metrics the last line
matching a recognized format variant (with a parsable number) determines the
final value. -/
theorem sv_stats_last_match_wins :
    extractSvStats ["Number of cells: 52".data, "        48 cells".data] = (0, 48)
    ∧ (∀ (xs ys : List Line) (l : Line) (v : Nat), ceUpd l = some v →
        (∀ y ∈ ys, ceUpd y = none) → (extractSvStats (xs ++ l :: ys)).2 = v)
    ∧ (∀ (xs ys : List Line) (l : Line) (v : Nat), wbUpd l = some v →
        (∀ y ∈ ys, wbUpd y = none) → (extractSvStats (xs ++ l :: ys)).1 = v) := by
  refine ⟨by decide, ?_, ?_⟩
  · intro xs ys l v hl hys
    unfold extractSvStats
    rw [extract_snd, List.foldl_append, List.foldl_cons, hl]
    exact foldl_getD_none ys v hys
  · intro xs ys l v hl hys
    unfold extractSvStats
    rw [extract_fst, List.foldl_append, List.foldl_cons, hl]
    exact foldl_getD_none ys v hys

/-- Claim C2, witness: the general last-match-wins part applied to the
concrete one-line output `"        48 cells"`. -/
theorem sv_stats_last_match_wins_witness :
    (extractSvStats [[], "        48 cells".data]).2 = 48 :=
  sv_stats_last_match_wins.2.1 [[]] [] "        48 cells".data 48
    (by decide) (by simp)

/-! ### Claim C1 -/

/-- Keys after a dict insertion: the inserted key plus the previous keys. -/
theorem dictInsert_mem_keys (m : List (String × (Nat × Nat))) (k : String)
    (v : Nat × Nat) (a : String) :
    a ∈ (dictInsert m k v).map Prod.fst ↔ a = k ∨ a ∈ m.map Prod.fst := by
  induction m with
  | nil => simp [dictInsert]
  | cons p rest ih =>
    obtain ⟨k', v'⟩ := p
    by_cases h : k' = k
    · subst h; simp [dictInsert]
    · simp only [dictInsert, if_neg h, List.map_cons, List.mem_cons, ih]
      tauto

/-- Dict insertion preserves distinctness of keys. -/
theorem dictInsert_nodup (m : List (String × (Nat × Nat))) (k : String)
    (v : Nat × Nat) (h : (m.map Prod.fst).Nodup) :
    ((dictInsert m k v).map Prod.fst).Nodup := by
  induction m with
  | nil => simp [dictInsert]
  | cons p rest ih =>
    obtain ⟨k', v'⟩ := p
    simp only [List.map_cons, List.nodup_cons] at h
    by_cases hk : k' = k
    · subst hk; simpa [dictInsert] using h
    · simp only [dictInsert, if_neg hk, List.map_cons, List.nodup_cons]
      exact ⟨fun hm => ((dictInsert_mem_keys rest k v k').mp hm).elim
          (fun he => hk he) h.1, ih h.2⟩

/-- Looking up the key just inserted yields the inserted value. -/
theorem dictInsert_find_self (m : List (String × (Nat × Nat))) (k : String)
    (v : Nat × Nat) : dictFind (dictInsert m k v) k = some v := by
  induction m with
  | nil => simp [dictInsert, dictFind]
  | cons p rest ih =>
    obtain ⟨k', v'⟩ := p
    by_cases h : k' = k
    · subst h; simp [dictInsert, dictFind]
    · simp [dictInsert, dictFind, if_neg h, ih]

/-- Looking up a different key is unaffected by an insertion. -/
theorem dictInsert_find_ne (m : List (String × (Nat × Nat))) (k a : String)
    (v : Nat × Nat) (hne : a ≠ k) :
    dictFind (dictInsert m k v) a = dictFind m a := by
  induction m with
  | nil => simp [dictInsert, dictFind, Ne.symm hne]
  | cons p rest ih =>
    obtain ⟨k', v'⟩ := p
    by_cases h : k' = k
    · subst h
      simp [dictInsert, dictFind, Ne.symm hne]
    · simp [dictInsert, dictFind, if_neg h, ih]

/-- Invariant of the result-collection loop of `process_files`, over any
starting dict with distinct keys. -/
theorem process_files_aux (order : List String)
    (worker : String → Option (Nat × Nat)) :
    ∀ (m : List (String × (Nat × Nat))), (m.map Prod.fst).Nodup →
      (((order.foldl (fun m f => dictInsert m f (workerResult worker f)) m).map
          Prod.fst).Nodup
      ∧ (∀ a, a ∈ (order.foldl (fun m f => dictInsert m f (workerResult worker f))
            m).map Prod.fst ↔ a ∈ m.map Prod.fst ∨ a ∈ order)
      ∧ ∀ f, dictFind (order.foldl (fun m f => dictInsert m f
            (workerResult worker f)) m) f =
          if f ∈ order then some (workerResult worker f) else dictFind m f) := by
  induction order with
  | nil => intro m hm; simpa using hm
  | cons g rest ih =>
    intro m hm
    simp only [List.foldl_cons]
    obtain ⟨h1, h2, h3⟩ := ih (dictInsert m g (workerResult worker g))
      (dictInsert_nodup m g _ hm)
    refine ⟨h1, ?_, ?_⟩
    · intro a
      rw [h2 a, dictInsert_mem_keys]
      simp only [List.mem_cons]
      tauto
    · intro f
      rw [h3 f]
      by_cases hr : f ∈ rest
      · simp [hr]
      · by_cases hg : f = g
        · subst hg
          simp [hr, dictInsert_find_self]
        · simp [hr, hg, dictInsert_find_ne m g f _ hg]

/-- Claim C1.  `process_files` collects completed futures in some completion
order (a permutation of the input list); the resulting mapping has distinct
keys, its key set equals the input file set exactly, a file whose worker
raised is mapped to `(0, 0)`, and every other file is mapped to its own
worker's result. -/
theorem process_files_keyset_isolation (files order : List String)
    (worker : String → Option (Nat × Nat)) (hperm : order.Perm files) :
    ((process_files worker order).map Prod.fst).Nodup
    ∧ (∀ f, f ∈ (process_files worker order).map Prod.fst ↔ f ∈ files)
    ∧ ∀ f ∈ files,
        (worker f = none → dictFind (process_files worker order) f = some (0, 0))
        ∧ ∀ r, worker f = some r →
            dictFind (process_files worker order) f = some r := by
  unfold process_files
  obtain ⟨h1, h2, h3⟩ := process_files_aux order worker [] (by simp)
  refine ⟨h1, ?_, ?_⟩
  · intro f
    rw [h2 f]
    simp [hperm.mem_iff]
  · intro f hf
    have hmem : f ∈ order := hperm.mem_iff.mpr hf
    have hfind := h3 f
    rw [if_pos hmem] at hfind
    constructor
    · intro hw
      rw [hfind]
      simp [workerResult, hw]
    · intro r hw
      rw [hfind]
      simp [workerResult, hw]

/-- Claim C1, witness: two files collected in reversed completion order; the
worker raises on `"a"` and returns `(1, 2)` for `"b"`. -/
theorem process_files_keyset_isolation_witness :
    dictFind (process_files workerEx ["b", "a"]) "a" = some (0, 0)
    ∧ dictFind (process_files workerEx ["b", "a"]) "b" = some (1, 2) :=
  ⟨((process_files_keyset_isolation ["a", "b"] ["b", "a"] workerEx
      (by decide)).2.2 "a" (by simp)).1 (by decide),
   ((process_files_keyset_isolation ["a", "b"] ["b", "a"] workerEx
      (by decide)).2.2 "b" (by simp)).2 (1, 2) (by decide)⟩

/-! ### Claim C8 -/

/-- The last-marker index loop returns its accumulator over marker-free
lines. -/
theorem lastMarkerIdxAux_skip (ls : List Line) :
    ∀ (i : Nat) (acc : Option Nat), (∀ l ∈ ls, hasMarkerLine l = false) →
      lastMarkerIdxAux i acc ls = acc := by
  induction ls with
  | nil => intro i acc _; rfl
  | cons l rest ih =>
    intro i acc h
    simp only [lastMarkerIdxAux, h l (by simp)]
    exact ih (i + 1) acc (fun y hy => h y (by simp [hy]))

/-- The last-marker index loop finds the position of the last marker line. -/
theorem lastMarkerIdxAux_last (xs : List Line) :
    ∀ (i : Nat) (acc : Option Nat) (m : Line) (ys : List Line),
      hasMarkerLine m = true → (∀ y ∈ ys, hasMarkerLine y = false) →
      lastMarkerIdxAux i acc (xs ++ m :: ys) = some (i + xs.length) := by
  induction xs with
  | nil =>
    intro i acc m ys hm hys
    simp only [List.nil_append, lastMarkerIdxAux, hm, if_true]
    simpa using lastMarkerIdxAux_skip ys (i + 1) (some i) hys
  | cons x rest ih =>
    intro i acc m ys hm hys
    simp only [List.cons_append, lastMarkerIdxAux, List.append_eq]
    rw [ih (i + 1) _ m ys hm hys]
    congr 1
    simp only [List.length_cons]
    omega

/-- Claim C8.  `sum_cell_counts` returns 0 when no statistics marker occurs,
and otherwise sums exactly the `Number of cells:` values on the lines from the
last marker line onward — values before the last marker are excluded. -/
theorem sum_cell_counts_last_marker :
    (∀ text : List Char, (∀ l ∈ splitOnNl (pyStrip text), hasMarkerLine l = false) →
      sum_cell_counts text = 0)
    ∧ ∀ (text : List Char) (xs ys : List Line) (m : Line),
        splitOnNl (pyStrip text) = xs ++ m :: ys → hasMarkerLine m = true →
        (∀ y ∈ ys, hasMarkerLine y = false) →
        sum_cell_counts text = cellsOfLine m + (ys.map cellsOfLine).sum := by
  constructor
  · intro text h
    unfold sum_cell_counts sumCellsLines
    rw [lastMarkerIdxAux_skip _ 0 none h]
  · intro text xs ys m hsplit hm hys
    unfold sum_cell_counts sumCellsLines
    rw [hsplit, lastMarkerIdxAux_last xs 0 none m ys hm hys]
    simp only [Nat.zero_add, List.drop_left, List.map_cons, List.sum_cons]

/-- Claim C8, witness: two markers, each followed by cell-count lines; only
the counts after the second marker (5 and 7) are summed. -/
theorem sum_cell_counts_last_marker_witness :
    sum_cell_counts ("Printing statistics.\nNumber of cells: 3\nPrinting statistics.\nNumber of cells: 5\nNumber of cells: 7").data = 12 :=
  (sum_cell_counts_last_marker.2 _
    ["Printing statistics.".data, "Number of cells: 3".data]
    ["Number of cells: 5".data, "Number of cells: 7".data]
    "Printing statistics.".data (by decide) (by decide) (by decide)).trans
    (by decide)

/-! ### Claim C6 -/

/-- The entity-scan fold keeps its accumulator over lines yielding no entity
word. -/
theorem entity_foldl_skip (ys : List Line) :
    ∀ acc : Option (List Char), (∀ y ∈ ys, entityScan none y = none) →
      ys.foldl
        (fun acc l =>
          match entityScan none l with
          | some w => some w
          | none => acc)
        acc = acc := by
  induction ys with
  | nil => intro acc _; rfl
  | cons y rest ih =>
    intro acc h
    simp only [List.foldl_cons, h y (by simp)]
    exact ih acc (fun z hz => h z (by simp [hz]))

/-- Claim C6.  `get_top_entity` performs a case-insensitive scan and the last
line yielding an entity name determines the result (first conjunct: a concrete
file where `entity Adder` is declared before `ENTITY Top`; second conjunct:
the general last-match property); and when no entity name is found, the VHDL
analysis fails fast with `(0, 0)` for every possible tool behavior — the tool
is never consulted. -/
theorem get_top_entity_last_failfast :
    get_top_entity
        ("library x;\nentity Adder is\nend entity Adder;\nENTITY Top is").data
      = some "Top".data
    ∧ (∀ (xs ys : List Line) (l : Line) (w : List Char),
        entityScan none l = some w → (∀ y ∈ ys, entityScan none y = none) →
        getTopEntityLines (xs ++ l :: ys) = some w)
    ∧ ∀ (fn content : List Char) (tool : List Char → Option (List Char)),
        get_top_entity content = none → yosys_vhdl fn content tool = (0, 0) := by
  refine ⟨by decide, ?_, ?_⟩
  · intro xs ys l w hl hys
    unfold getTopEntityLines
    rw [List.foldl_append, List.foldl_cons]
    simp only [hl]
    exact entity_foldl_skip ys (some w) hys
  · intro fn content tool h
    unfold yosys_vhdl
    rw [h]

/-- Claim C6, witness: the last-match part applied to a one-line file, and the
fail-fast part applied to a file without an entity declaration. -/
theorem get_top_entity_last_failfast_witness :
    getTopEntityLines ["entity E is".data] = some "E".data
    ∧ yosys_vhdl "f.vhdl".data "no decl here".data (fun _ => some []) = (0, 0) :=
  ⟨get_top_entity_last_failfast.2.1 [] [] "entity E is".data "E".data
      (by decide) (by simp),
   get_top_entity_last_failfast.2.2 _ _ _ (by decide)⟩

/-! ### Claim C5 -/

/-- Claim C5.  `get_top_module` scans the text for module declarations and
excludes every candidate whose lowercased name contains one of the five
verification-related substrings (first conjunct: no surviving candidate is
excluded); it returns a candidate equal to the file's base name when one
exists (second conjunct), and otherwise the last surviving candidate in file
order (third conjunct). -/
theorem get_top_module_selection :
    (∀ content : List Char, ∀ nm ∈ svCandidates content, nameExcluded nm = false)
    ∧ (∀ content base : List Char, base ∈ svCandidates content →
        get_top_module_from content base = base)
    ∧ ∀ content base : List Char, base ∉ svCandidates content →
        svCandidates content ≠ [] →
        get_top_module_from content base = (svCandidates content).getLastD base := by
  refine ⟨?_, ?_, ?_⟩
  · intro content nm hnm
    have h := List.of_mem_filter hnm
    simpa using h
  · intro content base hb
    unfold get_top_module_from
    have hne : (svCandidates content).isEmpty = false := by
      cases h : svCandidates content
      · rw [h] at hb; simp at hb
      · simp [h]
    have hany : (svCandidates content).any (fun c => c == base) = true := by
      rw [List.any_eq_true]
      exact ⟨base, hb, by simp⟩
    simp [hne, hany]
  · intro content base hb hne
    unfold get_top_module_from
    have h1 : (svCandidates content).isEmpty = false := by
      simpa [List.isEmpty_iff] using hne
    have h2 : (svCandidates content).any (fun c => c == base) = false := by
      rw [List.any_eq_false]
      intro c hc
      simp only [beq_iff_eq]
      intro he
      exact hb (he ▸ hc)
    simp [h1, h2]

/-- Claim C5, witness: a file declaring `AssertChk` (excluded), `Sub` and
`Top`; the base name matches no candidate, so the last candidate `Top` is
chosen. -/
theorem get_top_module_selection_witness :
    get_top_module_from
        "module AssertChk (x);\nmodule Sub (a);\nmodule Top #(p) (b);".data
        "Nope".data
      = "Top".data :=
  (get_top_module_selection.2.2
      "module AssertChk (x);\nmodule Sub (a);\nmodule Top #(p) (b);".data
      "Nope".data (by decide) (by decide)).trans (by decide)

/-! ### Claim C10 -/

/-- Claim C10.  For every input file whose name ends in `.vhdl`, the
MetricPair returned by the analysis has wireBitCount 0 regardless of the
file content and of the tool's behavior: the VHDL extraction path computes
only the cell count. -/
theorem vhdl_wirebits_zero (fn content tmpPath : List Char)
    (pre : Option (List Char)) (toolV : List Char → Option (List Char))
    (toolS : List (List Char) → Option (List Char))
    (h : endsWithL fn ".vhdl".data = true) :
    (yosys_analyze fn content tmpPath pre toolV toolS).1 = 0 := by
  unfold yosys_analyze
  rw [if_pos h]
  unfold yosys_vhdl
  cases hge : get_top_entity content with
  | none => rfl
  | some top => cases htool : toolV (vhdlCmd fn top) <;> simp [htool]

/-- Claim C10, witness: a `.vhdl` file whose tool output even reports wire
bits still yields wireBitCount 0. -/
theorem vhdl_wirebits_zero_witness :
    (yosys_analyze "a.vhdl".data "entity E is".data [] none
      (fun _ =>
        some "Number of wire bits: 99\nPrinting statistics.\nNumber of cells: 4".data)
      (fun _ => none)).1 = 0 :=
  vhdl_wirebits_zero _ _ _ _ _ _ (by decide)

/-! ### Claim C9 -/

/-- Claim C9.  When preprocessing fails (`preprocess_sv_file` returned a null
result, modeled as `pre = none`), the invoker builds the command against the
original untransformed file path and still runs the tool and returns a
MetricPair (first conjunct: the analysis equals running the tool on the
fallback command and extracting, a total computation); the fallback command
runs the identical pipeline stages after the read line (second conjunct), and
its read line targets the original path (third conjunct). -/
theorem sv_fallback_original (fn content tmpPath : List Char)
    (toolV : List Char → Option (List Char))
    (toolS : List (List Char) → Option (List Char))
    (h : endsWithL fn ".vhdl".data = false) :
    (yosys_analyze fn content tmpPath none toolV toolS =
      match toolS (svCmdLines (svReadOrig fn)
          (get_top_module_from content (pySplitExtRoot (pyBaseName fn)))) with
      | none => (0, 0)
      | some out => extractSvStats (splitOnNl out))
    ∧ (∀ top : List Char,
        (svCmdLines (svReadOrig fn) top).tail =
          (svCmdLines (svReadPre tmpPath) top).tail)
    ∧ svReadOrig fn = "read -sv ".data ++ fn := by
  refine ⟨?_, fun top => rfl, rfl⟩
  have h' : ¬ endsWithL fn ".vhdl".data = true := by simp [h]
  unfold yosys_analyze
  rw [if_neg h']
  rfl

/-- Claim C9, witness: preprocessing failed for `top.sv`, the tool is run on
the fallback command against the original path, and the metrics are still
extracted. -/
theorem sv_fallback_original_witness :
    yosys_analyze "top.sv".data "module Top (x);".data "tmp_1_top.sv".data none
      (fun _ => none)
      (fun _ => some "Number of wire bits: 7\n       6 cells".data) = (7, 6) := by
  rw [(sv_fallback_original "top.sv".data "module Top (x);".data
      "tmp_1_top.sv".data (fun _ => none)
      (fun _ => some "Number of wire bits: 7\n       6 cells".data)
      (by decide)).1]
  decide

/-! ### Claim C4 -/

/-- Case analysis of the depth change of one line of the suppression pass:
an open directive adds one, sets the depth to 1, or (only outside a
suppressed region) leaves it unchanged; a close directive subtracts one or
(only outside a suppressed region) leaves it unchanged; a plain line never
changes the depth. -/
theorem enableStep_cases (d : Int) (l : Line) :
    (dirKind l = .openDir ∧ ((enableStep d l).1 = d + 1 ∨ (enableStep d l).1 = 1
        ∨ ((enableStep d l).1 = d ∧ d ≤ 0)))
    ∨ (dirKind l = .closeDir ∧ ((enableStep d l).1 = d - 1
        ∨ ((enableStep d l).1 = d ∧ d ≤ 0)))
    ∨ (dirKind l = .plainDir ∧ (enableStep d l).1 = d) := by
  unfold enableStep enableFall dirKind
  split_ifs <;> simp_all

/-- Along well-formed input the pass's depth never exceeds the true nesting
depth: folding from `d ≤ t` with all directive prefixes nonnegative relative
to `t` ends at most at `t` plus the net balance. -/
theorem enable_foldl_le (ls : List Line) :
    ∀ (d t : Int) (acc : List Line), d ≤ t → 0 ≤ t →
      dirNonnegFrom t ls = true →
      (ls.foldl enableScan (d, acc)).1 ≤ t + dirBal ls := by
  induction ls with
  | nil =>
    intro d t acc h1 _ _
    simpa [dirBal] using h1
  | cons l rest ih =>
    intro d t acc h1 h2 h3
    rw [dirNonnegFrom] at h3
    by_cases hcond : 0 ≤ t + dirVal l
    · rw [if_pos hcond] at h3
      have hd' : (enableStep d l).1 ≤ t + dirVal l := by
        rcases enableStep_cases d l with ⟨hk, hv⟩ | ⟨hk, hv⟩ | ⟨hk, hv⟩ <;>
          simp only [dirVal, hk] at hcond ⊢
        · rcases hv with h | h | ⟨h, hle⟩ <;> omega
        · rcases hv with h | ⟨h, hle⟩ <;> omega
        · omega
      have hpair : enableScan (d, acc) l =
          ((enableStep d l).1, (enableScan (d, acc) l).2) := rfl
      rw [List.foldl_cons, hpair]
      have := ih (enableStep d l).1 (t + dirVal l) (enableScan (d, acc) l).2
        hd' hcond h3
      have hbal : dirBal (l :: rest) = dirVal l + dirBal rest := by
        simp [dirBal]
      omega
    · rw [if_neg hcond] at h3
      exact absurd h3 (by simp)

/-- Marker-free lines processed at nonpositive depth are all kept, with the
depth unchanged. -/
theorem enable_foldl_marker_free (ts : List Line) :
    ∀ st : Int × List Line, st.1 ≤ 0 →
      (∀ t ∈ ts, containsSub t enableMarkerStr = false) →
      ts.foldl enableScan st = (st.1, st.2 ++ ts) := by
  induction ts with
  | nil => intro st _ _; simp
  | cons t rest ih =>
    intro st hle hts
    have hstep : enableScan st t = (st.1, st.2 ++ [t]) := by
      unfold enableScan enableStep enableFall
      have hng : ¬ st.1 > 0 := by omega
      simp [hts t (by simp), hng]
    rw [List.foldl_cons, hstep]
    rw [ih (st.1, st.2 ++ [t]) hle (fun z hz => hts z (by simp [hz]))]
    simp

/-- Claim C4, amended.  In the marker-guarded conditional-compilation pass,
a marker `` `ifdef `` increments the suppression depth, a marker `` `ifndef ``
SETS it to 1 (it does not increment), and a marker `` `endif `` decrements it;
generic conditional directives adjust the depth only while suppression is
active.  Consequently, for well-formed input (directive prefixes never close
more than was opened, equal numbers of opens and closes overall) the pass ends
with suppression inactive, and no line after the balanced region is dropped. -/
theorem enable_pass_balanced_no_residual :
    (∀ (d : Int) (l : Line), containsSub l enableMarkerStr = true →
        searchIfdefEnable l = true → (enableStep d l).1 = d + 1)
    ∧ (∀ (d : Int) (l : Line), containsSub l enableMarkerStr = true →
        searchIfdefEnable l = false → searchIfndefEnable l = true →
        (enableStep d l).1 = 1)
    ∧ (∀ (d : Int) (l : Line), containsSub l enableMarkerStr = true →
        searchIfdefEnable l = false → searchIfndefEnable l = false →
        searchEndifEnable l = true → (enableStep d l).1 = d - 1)
    ∧ ∀ ws ts : List Line,
        dirNonnegFrom 0 ws = true → dirBal ws = 0 →
        (∀ t ∈ ts, containsSub t enableMarkerStr = false) →
        removeEnableBlocks (ws ++ ts) = removeEnableBlocks ws ++ ts := by
  refine ⟨?_, ?_, ?_, ?_⟩
  · intro d l h1 h2
    unfold enableStep
    simp [h1, h2]
  · intro d l h1 h2 h3
    unfold enableStep
    simp [h1, h2, h3]
  · intro d l h1 h2 h3 h4
    unfold enableStep
    simp [h1, h2, h3, h4]
  · intro ws ts hnn hbal hts
    unfold removeEnableBlocks
    rw [List.foldl_append]
    have hdep : (ws.foldl enableScan (0, [])).1 ≤ 0 := by
      have h := enable_foldl_le ws 0 0 [] le_rfl le_rfl hnn
      rwa [hbal, add_zero] at h
    rw [enable_foldl_marker_free ts _ hdep hts]

/-- Claim C4, witness: a balanced marker-guarded block (its body dropped)
followed by a marker-free line, which survives the pass. -/
theorem enable_pass_balanced_no_residual_witness :
    removeEnableBlocks
        (["`ifdef ENABLE_INITIAL_REG_A".data, "dropped".data,
          "`endif ENABLE_INITIAL_REG_A".data] ++ ["kept line".data])
      = removeEnableBlocks
          ["`ifdef ENABLE_INITIAL_REG_A".data, "dropped".data,
           "`endif ENABLE_INITIAL_REG_A".data] ++ ["kept line".data] :=
  enable_pass_balanced_no_residual.2.2.2 _ _ (by decide) (by decide) (by decide)

/-- Claim C4, counterexample.  The claim states that every block-opening
directive increments the suppression depth.  A marker `` `ifndef `` is a
block-opening directive, yet at depth 1 the pass SETS the depth to 1 instead
of incrementing it to 2.  Observable consequence: in a nested marker-guarded
region with two opens, one inner close and one outer close, the line before
the outer close is emitted, although under increment/decrement semantics the
depth there would still be 1 and the line would be suppressed. -/
theorem enable_open_does_not_increment :
    dirKind "`ifndef ENABLE_INITIAL_REG_B".data = DirKind.openDir
    ∧ (enableStep 1 "`ifndef ENABLE_INITIAL_REG_B".data).1 = 1
    ∧ ¬ (enableStep 1 "`ifndef ENABLE_INITIAL_REG_B".data).1 = 1 + 1
    ∧ removeEnableBlocks
        ["`ifdef ENABLE_INITIAL_REG_A".data,
         "`ifndef ENABLE_INITIAL_REG_B".data,
         "`endif // ENABLE_INITIAL_REG_B".data,
         "inner w".data,
         "`endif // ENABLE_INITIAL_REG_A".data,
         "after".data]
        = ["inner w".data, "after".data] := by decide

/-! ### Claim C7 -/

/-- Lines that open no always block pass through the top-level scanner
unchanged, in order. -/
theorem hoist_foldl_top_plain (pre : List Line) :
    (∀ l ∈ pre, plainTopLine l = true) →
    ∀ out : List Line,
      pre.foldl hoistStep (out, HMode.top) = (out ++ pre, HMode.top) := by
  induction pre with
  | nil => intro _ out; simp
  | cons p rest ih =>
    intro hpre out
    have halw : alwaysHeader p = none := by
      have h := hpre p (by simp)
      simpa [plainTopLine, Option.isNone_iff_eq_none] using h
    have hstep : hoistStep (out, HMode.top) p = (out ++ [p], HMode.top) := by
      unfold hoistStep
      simp [halw]
    rw [List.foldl_cons, hstep, ih (fun l hl => hpre l (by simp [hl])) (out ++ [p])]
    simp

/-- Plain block-body lines are appended to the block body in order, without
changing the depth or the pending hoisted wires. -/
theorem hoist_foldl_blk_plain (b : List Line) :
    (∀ l ∈ b, plainBodyLine l = true) →
    ∀ (out : List Line) (ind : List Char) (d : Nat) (h acc : List Line)
      (hdr : Line),
      b.foldl hoistStep (out, HMode.blk ind d h acc hdr) =
        (out, HMode.blk ind d h (acc ++ b) hdr) := by
  induction b with
  | nil => intro _ out ind d h acc hdr; simp
  | cons p rest ih =>
    intro hb out ind d h acc hdr
    have hp := hb p (by simp)
    simp only [plainBodyLine, Bool.and_eq_true, Bool.not_eq_true'] at hp
    obtain ⟨⟨h1, h2⟩, h3⟩ := hp
    have h3' : logicDecl p = none := Option.isNone_iff_eq_none.mp h3
    have hstep : hoistStep (out, HMode.blk ind d h acc hdr) p =
        (out, HMode.blk ind d h (acc ++ [p]) hdr) := by
      unfold hoistStep
      simp [hasEndTok, h1, h2, h3']
    rw [List.foldl_cons, hstep,
      ih (fun l hl => hb l (by simp [hl])) out ind d h (acc ++ [p]) hdr]
    simp

/-- The always header of the example opens a block with its indentation. -/
theorem hoistStep_hdr (out : List Line) :
    hoistStep (out, HMode.top) hoistHdrEx =
      (out, HMode.blk "  ".data 1 [] [] hoistHdrEx) := rfl

/-- The first example declaration is captured for hoisting and not emitted. -/
theorem hoistStep_decl1 (out : List Line) (d : Nat) (h acc : List Line)
    (hdr : Line) :
    hoistStep (out, HMode.blk "  ".data d h acc hdr) hoistDeclEx1 =
      (out, HMode.blk "  ".data d (h ++ [hoistWireEx1]) acc hdr) := rfl

/-- The second example declaration is captured for hoisting after the first. -/
theorem hoistStep_decl2 (out : List Line) (d : Nat) (h acc : List Line)
    (hdr : Line) :
    hoistStep (out, HMode.blk "  ".data d h acc hdr) hoistDeclEx2 =
      (out, HMode.blk "  ".data d (h ++ [hoistWireEx2]) acc hdr) := rfl

/-- The closing `end` at depth 1 emits the hoisted wires immediately before
the header, then the header, the body and the end line. -/
theorem hoistStep_end (out : List Line) (ind : List Char) (h acc : List Line)
    (hdr : Line) :
    hoistStep (out, HMode.blk ind 1 h acc hdr) hoistEndEx =
      (out ++ h ++ [hdr] ++ acc ++ [hoistEndEx], HMode.top) := rfl

/-- Claim C7.  For every source text consisting of any plain prefix, the
clocked block `always @(posedge clk) begin ... end` whose body declares
`logic [7:0] tmp = a + b;` and later `logic [3:0] u = c;` among arbitrary
plain body lines, and any plain suffix, the hoisting stage emits
`wire [7:0] tmp = a + b;` and `wire [3:0] u = c;` immediately before the
block in source order, and removes both in-block declaration lines. -/
theorem hoist_logic_example (pre b1 b2 b3 post : List Line)
    (hpre : ∀ l ∈ pre, plainTopLine l = true)
    (hb1 : ∀ l ∈ b1, plainBodyLine l = true)
    (hb2 : ∀ l ∈ b2, plainBodyLine l = true)
    (hb3 : ∀ l ∈ b3, plainBodyLine l = true)
    (hpost : ∀ l ∈ post, plainTopLine l = true) :
    hoistLines (pre ++ [hoistHdrEx] ++ b1 ++ [hoistDeclEx1] ++ b2 ++
        [hoistDeclEx2] ++ b3 ++ [hoistEndEx] ++ post)
      = pre ++ [hoistWireEx1, hoistWireEx2, hoistHdrEx] ++ b1 ++ b2 ++ b3 ++
          [hoistEndEx] ++ post := by
  unfold hoistLines
  simp only [List.foldl_append]
  rw [hoist_foldl_top_plain pre hpre]
  simp only [List.foldl_cons, List.foldl_nil]
  rw [hoistStep_hdr, hoist_foldl_blk_plain b1 hb1, hoistStep_decl1,
    hoist_foldl_blk_plain b2 hb2, hoistStep_decl2,
    hoist_foldl_blk_plain b3 hb3, hoistStep_end,
    hoist_foldl_top_plain post hpost]
  unfold hoistFinal
  simp

/-- Claim C7, witness: a concrete module around the example block; the two
wires appear immediately before the block, in source order, and the in-block
declarations are gone. -/
theorem hoist_logic_example_witness :
    hoistLines (["module m;".data] ++ [hoistHdrEx] ++ ["    q <= tmp;".data] ++
        [hoistDeclEx1] ++ [] ++ [hoistDeclEx2] ++ ["    r <= u;".data] ++
        [hoistEndEx] ++ ["endmodule".data])
      = ["module m;".data] ++ [hoistWireEx1, hoistWireEx2, hoistHdrEx] ++
          ["    q <= tmp;".data] ++ [] ++ ["    r <= u;".data] ++
          [hoistEndEx] ++ ["endmodule".data] :=
  hoist_logic_example ["module m;".data] ["    q <= tmp;".data] []
    ["    r <= u;".data] ["endmodule".data] (by decide) (by decide) (by decide)
    (by decide) (by decide)
